import Mathlib

/-!
Verification of the rate-limiter core of `RateLimit-Golang-Challenge`.

The Go code keeps, per identity, either a Redis sorted set of request
timestamps (sliding window, `pkg/ratelimiter` SlidingWindow) or a Redis hash
with a fractional `level` and an integer `last_update` (leaky bucket,
LeakyBucket), and a service layer (`internal/service/ratelimiter/service.go`)
that resolves a per-identity limit override through a local cache in front of
the store.  We embed those operations as pure Lean functions: the sorted set
becomes a `Finset ℤ` of millisecond timestamps (score = member = timestamp, so
a duplicate insert collapses, exactly as `ZADD key ts ts` does), Go `float64`
arithmetic becomes exact `ℚ` arithmetic, and the Redis round trips become
explicit parameters and returned state.
-/

namespace RateLimit

/-! Sliding window limiter (`SlidingWindow.Allow` / `GetRemaining` / `Reset`).

The Lua script in `SlidingWindow.Allow` runs, atomically:
`ZREMRANGEBYSCORE key -inf window_start` (drops every entry with score ≤
window_start), `ZCARD`, and, when the count is below the limit,
`ZADD key current_time current_time` plus `EXPIRE`.  The window record is the
set of member timestamps; the key's TTL plays no role in any claim about the
window, so it is not part of the state. -/

/-- One `SlidingWindow.Allow` call: `now` and `windowStart` are the
millisecond values the Go wrapper passes to the script
(`windowStart = now − windowSize`).  Returns the new sorted-set contents and
the decision (`true` = allowed). -/
def slidingAllow (s : Finset ℤ) (now windowStart limit : ℤ) : Finset ℤ × Bool :=
  let purged := s.filter (fun t => windowStart < t)
  if (purged.card : ℤ) < limit then (insert now purged, true) else (purged, false)

/-- Embeds `SlidingWindow.GetRemaining`: purge, count, return `limit − count`
clamped at 0. -/
def slidingGetRemaining (s : Finset ℤ) (now windowSize limit : ℤ) : ℤ :=
  let purged := s.filter (fun t => now - windowSize < t)
  let remaining := limit - (purged.card : ℤ)
  if remaining < 0 then 0 else remaining

/-- Embeds `SlidingWindow.Reset`: `DEL` on the identity's key empties the set. -/
def slidingReset (_s : Finset ℤ) : Finset ℤ := ∅

/-- The sorted-set contents after the first `k` calls of a single-threaded
run that starts from an empty record, where call `i` happens at time `t i`
with window size `W` and limit `limit`. -/
def slidingRunState (W limit : ℤ) (t : ℕ → ℤ) : ℕ → Finset ℤ
  | 0 => ∅
  | k + 1 => (slidingAllow (slidingRunState W limit t k) (t k) (t k - W) limit).1

/-- The decision of the `(k+1)`-th call (0-indexed `k`) of that run. -/
def slidingRunDecision (W limit : ℤ) (t : ℕ → ℤ) (k : ℕ) : Bool :=
  (slidingAllow (slidingRunState W limit t k) (t k) (t k - W) limit).2

lemma slidingRunState_eq_image (W : ℤ) (n : ℕ) (t : ℕ → ℤ)
    (hmono : StrictMono t) (hW : t n - t 0 < W) :
    ∀ k, k ≤ n → slidingRunState W (n : ℤ) t k = (Finset.range k).image t := by
  intro k
  induction k with
  | zero => intro _; simp [slidingRunState]
  | succ k ih =>
    intro hk
    have hk' : k ≤ n := Nat.le_of_succ_le hk
    have hstate := ih hk'
    have hfilter :
        ((Finset.range k).image t).filter (fun x => t k - W < x)
          = (Finset.range k).image t := by
      apply Finset.filter_true_of_mem
      intro x hx
      rcases Finset.mem_image.mp hx with ⟨j, hj, rfl⟩
      have hjk : j < k := Finset.mem_range.mp hj
      have h1 : t j ≥ t 0 := hmono.monotone (Nat.zero_le j)
      have h2 : t k ≤ t n := hmono.monotone hk'
      have : t k - t j ≤ t n - t 0 := by omega
      omega
    have hcard : ((Finset.range k).image t).card = k := by
      rw [Finset.card_image_of_injective _ hmono.injective, Finset.card_range]
    rw [slidingRunState, hstate]
    unfold slidingAllow
    simp only [hfilter, hcard]
    have hlt : (k : ℤ) < (n : ℤ) := by exact_mod_cast Nat.lt_of_lt_of_le (Nat.lt_of_succ_le hk) le_rfl
    rw [if_pos hlt]
    simp [Finset.range_succ, Finset.image_insert]

/-- C1.  Sliding window burst bound: starting from an empty window
record, with strictly increasing call times all inside one window
(`t n − t 0 < W`), the first `n = limit` calls are all allowed and the
`(n+1)`-th is denied. -/
theorem sliding_burst_bound (n : ℕ) (t : ℕ → ℤ) (W : ℤ)
    (hn : 0 < n) (hmono : StrictMono t) (hW : t n - t 0 < W) :
    (∀ i, i < n → slidingRunDecision W (n : ℤ) t i = true) ∧
      slidingRunDecision W (n : ℤ) t n = false := by
  constructor
  · intro i hi
    have hstate := slidingRunState_eq_image W n t hmono hW i (Nat.le_of_lt hi)
    unfold slidingRunDecision slidingAllow
    rw [hstate]
    have hfilter :
        ((Finset.range i).image t).filter (fun x => t i - W < x)
          = (Finset.range i).image t := by
      apply Finset.filter_true_of_mem
      intro x hx
      rcases Finset.mem_image.mp hx with ⟨j, hj, rfl⟩
      have hjk : j < i := Finset.mem_range.mp hj
      have h1 : t j ≥ t 0 := hmono.monotone (Nat.zero_le j)
      have h2 : t i ≤ t n := hmono.monotone (Nat.le_of_lt hi)
      omega
    have hcard : ((Finset.range i).image t).card = i := by
      rw [Finset.card_image_of_injective _ hmono.injective, Finset.card_range]
    simp only [hfilter, hcard]
    rw [if_pos (by exact_mod_cast hi)]
  · have hstate := slidingRunState_eq_image W n t hmono hW n le_rfl
    unfold slidingRunDecision slidingAllow
    rw [hstate]
    have hfilter :
        ((Finset.range n).image t).filter (fun x => t n - W < x)
          = (Finset.range n).image t := by
      apply Finset.filter_true_of_mem
      intro x hx
      rcases Finset.mem_image.mp hx with ⟨j, hj, rfl⟩
      have hjk : j < n := Finset.mem_range.mp hj
      have h1 : t j ≥ t 0 := hmono.monotone (Nat.zero_le j)
      omega
    have hcard : ((Finset.range n).image t).card = n := by
      rw [Finset.card_image_of_injective _ hmono.injective, Finset.card_range]
    simp only [hfilter, hcard]
    rw [if_neg (by omega)]

/-- Witness for `sliding_burst_bound` at `n = 2`, `t k = k`, `W = 10`:
calls at times 0 and 1 are allowed, the call at time 2 is denied. -/
theorem sliding_burst_bound_witness :
    (∀ i, i < 2 → slidingRunDecision 10 (2 : ℤ) (fun k => (k : ℤ)) i = true) ∧
      slidingRunDecision 10 (2 : ℤ) (fun k => (k : ℤ)) 2 = false :=
  sliding_burst_bound 2 (fun k => (k : ℤ)) 10 (by decide)
    Nat.strictMono_cast (by decide)

/-- C6.  Sliding-window `GetRemaining`: (i) for every state it returns
`max(0, limit − count)` where `count` is the number of entries left after the
purge; (ii) after `N` admitted requests within one window with `N < limit` it
equals `limit − N`; (iii) it is never negative. -/
theorem sliding_getRemaining_spec (n N : ℕ) (t : ℕ → ℤ) (W now : ℤ)
    (hmono : StrictMono t) (hW : t n - t 0 < W) (hN : N < n)
    (hwin : ∀ i, i < N → now - W < t i) :
    (∀ s now' limit',
        slidingGetRemaining s now' W limit'
          = max 0 (limit' - ((s.filter fun x => now' - W < x).card : ℤ))) ∧
    slidingGetRemaining (slidingRunState W (n : ℤ) t N) now W (n : ℤ)
      = (n : ℤ) - (N : ℤ) ∧
    (∀ s now' limit', 0 ≤ slidingGetRemaining s now' W limit') := by
  have hformula : ∀ (s : Finset ℤ) (now' limit' : ℤ),
      slidingGetRemaining s now' W limit'
        = max 0 (limit' - ((s.filter fun x => now' - W < x).card : ℤ)) := by
    intro s now' limit'
    unfold slidingGetRemaining
    by_cases h : limit' - ((s.filter fun x => now' - W < x).card : ℤ) < 0
    · simp only [if_pos h]
      omega
    · simp only [if_neg h]
      omega
  refine ⟨hformula, ?_, ?_⟩
  · have hstate := slidingRunState_eq_image W n t hmono hW N (Nat.le_of_lt hN)
    rw [hformula, hstate]
    have hfilter :
        ((Finset.range N).image t).filter (fun x => now - W < x)
          = (Finset.range N).image t := by
      apply Finset.filter_true_of_mem
      intro x hx
      rcases Finset.mem_image.mp hx with ⟨j, hj, rfl⟩
      exact hwin j (Finset.mem_range.mp hj)
    rw [hfilter, Finset.card_image_of_injective _ hmono.injective, Finset.card_range]
    have : (N : ℤ) < (n : ℤ) := by exact_mod_cast hN
    omega
  · intro s now' limit'
    rw [hformula]
    exact le_max_left _ _

/-- Witness for `sliding_getRemaining_spec` at `n = 3`, `N = 1`, `t k = k`,
`W = 10`, `now = 1`. -/
theorem sliding_getRemaining_spec_witness :
    slidingGetRemaining (slidingRunState 10 (3 : ℤ) (fun k => (k : ℤ)) 1) 1 10 (3 : ℤ)
      = (3 : ℤ) - (1 : ℤ) :=
  (sliding_getRemaining_spec 3 1 (fun k => (k : ℤ)) 10 1
    Nat.strictMono_cast (by decide) (by decide)
    (fun i hi => by interval_cases i <;> decide)).2.1

/-! Leaky bucket limiter (`LeakyBucket.Allow` / `GetRemaining` / `Reset`).

The bucket lives in a Redis hash with fields `level` (a decimal float) and
`last_update` (milliseconds).  `Allow` runs a Lua script; `GetRemaining` reads
the two fields with `HMGET` and recomputes the decayed level in Go.  Go
`float64` / Lua number arithmetic is embedded as exact `ℚ` arithmetic. -/

/-- Lua `math.max(0, q)`. -/
def luaMax0 (q : ℚ) : ℚ := if q < 0 then 0 else q

/-- Lua `math.ceil(ms / 1000)` for an integer number of milliseconds `ms`
(the TTL the scripts pass to `EXPIRE`, before the `+ 1`). -/
def ceilDiv1000 (ms : ℤ) : ℤ := -(Int.ediv (-ms) 1000)

/-- Go's conversion `int(f)` of a `float64`: truncation toward zero. -/
def truncq (q : ℚ) : ℤ := Int.tdiv q.num (q.den : ℤ)

/-- A leaky-bucket hash record stored under `rate_limit:leaky:<id>`: the two
optional hash fields plus the key's TTL in seconds once `EXPIRE` has set
one. -/
structure Bucket where
  level : Option ℚ
  lastUpdate : Option ℤ
  expiry : Option ℤ
  deriving DecidableEq

/-- One `LeakyBucket.Allow` call, embedding its Lua script.  `st = none`
means the key does not exist.  The outer `Option` models a Lua runtime error:
when the `level` field is present but `last_update` is missing, the script's
`tonumber(nil)` makes the arithmetic abort; on every well-formed record the
result is `some`.  Returns the new record and the decision
(`true` = allowed). -/
def leakyAllow (st : Option Bucket) (now limit windowMs : ℤ) :
    Option (Option Bucket × Bool) :=
  let lvlF := st.bind Bucket.level
  let updF := st.bind Bucket.lastUpdate
  let read : Option (ℚ × ℤ) :=
    match lvlF with
    | none => some (0, now)
    | some l =>
      match updF with
      | none => none
      | some u => some (l, u)
  match read with
  | none => none
  | some lu =>
    let leakRate : ℚ := (limit : ℚ) / ((windowMs : ℚ) / 1000)
    let elapsed : ℤ := now - lu.2
    let level : ℚ := luaMax0 (lu.1 - (elapsed : ℚ) * leakRate)
    let ttl : ℤ := ceilDiv1000 windowMs + 1
    if level < (limit : ℚ) then
      some (some ⟨some (level + 1), some now, some ttl⟩, true)
    else
      some (some ⟨lvlF, some now, some ttl⟩, false)

/-- The state of one hash field as `LeakyBucket.GetRemaining` sees it after
`HMGET`: missing (`nil`), present but failing `strconv` parsing, or a parsed
number. -/
inductive Field (α : Type) where
  | absent : Field α
  | malformed : Field α
  | val : α → Field α
  deriving DecidableEq

/-- Embeds `LeakyBucket.GetRemaining`.  The `Except` input is the `HMGET` round trip
(`.error` = store failure, which the Go code propagates); the function reads
the two fields, recomputes the decayed level — writing nothing back — and
returns `limit − int(currentLevel)` clamped at 0, treating a missing or
unparsable field as full capacity. -/
def leakyGetRemaining (resp : Except Unit (Field ℚ × Field ℤ))
    (now limit windowMs : ℤ) : Except Unit ℤ :=
  match resp with
  | .error e => .error e
  | .ok fields =>
    match fields.1, fields.2 with
    | .absent, _ => .ok limit
    | _, .absent => .ok limit
    | .malformed, _ => .ok limit
    | _, .malformed => .ok limit
    | .val level, .val lastUpdate =>
      let elapsed : ℤ := now - lastUpdate
      let leakRate : ℚ := (limit : ℚ) / ((windowMs : ℚ) / 1000)
      let leaked : ℚ := (elapsed : ℚ) * leakRate
      let currentLevel : ℚ := if level - leaked < 0 then 0 else level - leaked
      let remaining : ℤ := limit - truncq currentLevel
      .ok (if remaining < 0 then 0 else remaining)

/-- Embeds `LeakyBucket.Reset`: `DEL` on the identity's key. -/
def leakyReset (_st : Option Bucket) : Option Bucket := none

/-- What the spec's sentence describes for `GetRemaining`:
`max(0, limit − round(level))` with genuine rounding (half up) of the
fractional decayed level, everything else exactly as in
`leakyGetRemaining`.  Kept only to compare against the code's behaviour. -/
def leakyGetRemainingRounded (resp : Except Unit (Field ℚ × Field ℤ))
    (now limit windowMs : ℤ) : Except Unit ℤ :=
  match resp with
  | .error e => .error e
  | .ok fields =>
    match fields.1, fields.2 with
    | .absent, _ => .ok limit
    | _, .absent => .ok limit
    | .malformed, _ => .ok limit
    | _, .malformed => .ok limit
    | .val level, .val lastUpdate =>
      let elapsed : ℤ := now - lastUpdate
      let leakRate : ℚ := (limit : ℚ) / ((windowMs : ℚ) / 1000)
      let leaked : ℚ := (elapsed : ℚ) * leakRate
      let currentLevel : ℚ := if level - leaked < 0 then 0 else level - leaked
      let remaining : ℤ := limit - Int.fdiv (currentLevel + 1/2).num ((currentLevel + 1/2).den : ℤ)
      .ok (if remaining < 0 then 0 else remaining)

/-- C5.  Denied leaky-bucket frame property: whenever `Allow` denies, the
resulting record keeps the raw stored `level` field exactly as it was (the
decayed value is not written back), sets `last_update` to the current time
and sets the key's TTL to `ceil(windowMs/1000) + 1`; the record has no other
field, so nothing else changes. -/
theorem leaky_denied_frame (st : Option Bucket) (now limit windowMs : ℤ)
    (st' : Option Bucket)
    (h : leakyAllow st now limit windowMs = some (st', false)) :
    st' = some ⟨st.bind Bucket.level, some now, some (ceilDiv1000 windowMs + 1)⟩ := by
  unfold leakyAllow at h
  rcases hl : st.bind Bucket.level with _ | l <;> rw [hl] at h
  · simp only at h
    split at h
    · simp at h
    · simp only [Option.some.injEq, Prod.mk.injEq] at h
      exact h.1.symm
  · rcases hu : st.bind Bucket.lastUpdate with _ | u <;> rw [hu] at h
    · simp at h
    · simp only at h
      split at h
      · simp at h
      · simp only [Option.some.injEq, Prod.mk.injEq] at h
        exact h.1.symm

/-- Witness for `leaky_denied_frame`: a full bucket (`level = 2`,
`limit = 2`, no elapsed time, 1-second window) is denied, keeps `level = 2`,
refreshes `last_update` and gets TTL 2. -/
theorem leaky_denied_frame_witness :
    (leakyAllow (some ⟨some 2, some 100, some 2⟩) 100 2 1000
        = some (some ⟨some 2, some 100, some 2⟩, false)) ∧
      (some ⟨some 2, some 100, some 2⟩ : Option Bucket)
        = some ⟨(some ⟨some 2, some 100, some 2⟩ : Option Bucket).bind Bucket.level,
                some 100, some (ceilDiv1000 1000 + 1)⟩ := by
  have hrun : leakyAllow (some ⟨some 2, some 100, some 2⟩) 100 2 1000
      = some (some ⟨some 2, some 100, some 2⟩, false) := by
    simp [leakyAllow, luaMax0,
      show ceilDiv1000 1000 = 1 from by decide,
      show (if (2 : ℚ) < 0 then (0 : ℚ) else 2) = 2 from if_neg (by simp)]
  exact ⟨hrun,
    leaky_denied_frame (some ⟨some 2, some 100, some 2⟩) 100 2 1000
      (some ⟨some 2, some 100, some 2⟩) hrun⟩

/-- C3, counterexample.  The claim says `GetRemaining` rounds the
fractional decayed level ("not truncation").  At a stored level of `8/5`
(i.e. `"1.6"`), zero elapsed time and `limit = 2`, the code truncates and
returns 1, while the claimed rounding formula gives `2 − round(1.6) = 0`. -/
theorem leaky_getRemaining_round_counterexample :
    leakyGetRemaining (.ok (.val (mkRat 8 5), .val 0)) 0 2 1000 = .ok 1 ∧
      leakyGetRemainingRounded (.ok (.val (mkRat 8 5), .val 0)) 0 2 1000 = .ok 0 := by
  have hnoneg : (if mkRat 8 5 < (0 : ℚ) then (0 : ℚ) else mkRat 8 5) = mkRat 8 5 :=
    if_neg (by decide)
  have hsum : (mkRat 8 5 + 1 / 2 : ℚ) = mkRat 21 10 := by
    rw [Rat.mkRat_eq_div, Rat.mkRat_eq_div]
    norm_num
  have hsum2 : (mkRat 8 5 + 2⁻¹ : ℚ) = mkRat 21 10 := by
    rw [Rat.mkRat_eq_div, Rat.mkRat_eq_div]
    norm_num
  constructor
  · simp [leakyGetRemaining, hnoneg, show truncq (mkRat 8 5) = 1 from by decide]
  · simp [leakyGetRemainingRounded, hnoneg, hsum, hsum2,
      show Int.fdiv (mkRat 21 10).num ((mkRat 21 10).den : ℤ) = 2 from by decide]

/-- C3, amended.  For every identity whose stored `level` and
`last_update` fields parse, `GetRemaining` recomputes the level by the decay
formula (read-only — the function writes nothing back) and returns
`max(0, limit − trunc(level))`, where `trunc` is Go's `int(...)` truncation
toward zero of the fractional level, not rounding. -/
theorem leaky_getRemaining_trunc (l : ℚ) (u now limit windowMs : ℤ) :
    leakyGetRemaining (.ok (.val l, .val u)) now limit windowMs
      = .ok (max 0 (limit -
          truncq (max 0 (l - ((now - u : ℤ) : ℚ) * ((limit : ℚ) / ((windowMs : ℚ) / 1000)))))) := by
  unfold leakyGetRemaining
  have hclamp :
      (if l - ((now - u : ℤ) : ℚ) * ((limit : ℚ) / ((windowMs : ℚ) / 1000)) < 0 then (0 : ℚ)
        else l - ((now - u : ℤ) : ℚ) * ((limit : ℚ) / ((windowMs : ℚ) / 1000)))
      = max 0 (l - ((now - u : ℤ) : ℚ) * ((limit : ℚ) / ((windowMs : ℚ) / 1000))) := by
    rcases lt_or_le (l - ((now - u : ℤ) : ℚ) * ((limit : ℚ) / ((windowMs : ℚ) / 1000))) 0 with h | h
    · rw [if_pos h, max_eq_left h.le]
    · rw [if_neg (not_lt.mpr h), max_eq_right h]
  simp only [hclamp]
  have hmax : ∀ r : ℤ, (if r < 0 then (0 : ℤ) else r) = max 0 r := by
    intro r
    rcases lt_or_le r 0 with h | h
    · rw [if_pos h]
      omega
    · rw [if_neg (not_lt.mpr h)]
      omega
  exact congrArg Except.ok (hmax _)

/-- C7.  Malformed bucket data recovery: whenever the stored fields are
present but one of them fails numeric parsing, `GetRemaining` returns the
full limit with no error — the parse failure never reaches the caller. -/
theorem leaky_malformed_full_capacity (now limit windowMs : ℤ) :
    (∀ g : Field ℤ,
        leakyGetRemaining (.ok (.malformed, g)) now limit windowMs = .ok limit) ∧
    (∀ l : ℚ,
        leakyGetRemaining (.ok (.val l, .malformed)) now limit windowMs = .ok limit) := by
  constructor
  · intro g
    cases g <;> rfl
  · intro l
    rfl

/-! Rate limiter service (`internal/service/ratelimiter/service.go`).

`Service` resolves a per-identity limit override through a local cache
(`userLimitsCache` / `cacheExpiry`, guarded by `cacheMutex`) in front of the
Redis key `rate_limit:config:<id>`, then delegates to the configured
algorithm.  We embed the cache as two maps `String → Option ℤ`, the Redis
`Get` round trip (together with the `parseInt` that follows it) as an
explicit parameter, and the delegated `Allow` / `GetRemaining` call as a
function of the effective limit. -/

/-- The fields of `config.RateLimitConfig` the service reads. -/
structure RLConfig where
  enableLocalCache : Bool
  localCacheTTL : ℤ
  algorithm : String
  windowSize : ℤ

/-- The service's local cache: `userLimitsCache` and `cacheExpiry`. -/
structure CacheState where
  limits : String → Option ℤ
  expiry : String → Option ℤ

/-- Outcome of `redisClient.Get(ctx, "rate_limit:config:<id>")` as
`getUserLimit` consumes it: `redis.Nil` (key absent), a communication error,
or a fetched string together with its `parseInt` outcome (`none` =
unparsable). -/
inductive GetResp where
  | nil : GetResp
  | fail : GetResp
  | val : Option ℤ → GetResp

/-- What one `getUserLimit` call produces: its `(int, error)` return value,
whether it reached the Redis `Get` (as opposed to answering from the local
cache), and the local cache it leaves behind. -/
structure ResolveOut where
  result : Except Unit ℤ
  storeQueried : Bool
  cache : CacheState

/-- Embeds `Service.getUserLimit`: local cache first (only when enabled, the entry
exists in both maps and `now` is before its expiry), then the store, where
`redis.Nil` means "no override" and yields `(0, nil)`, a communication
failure or an unparsable value yields an error, and a fetched value is
written back to the cache (when enabled) with expiry `now + TTL`. -/
def getUserLimit (cfg : RLConfig) (st : CacheState) (userID : String)
    (resp : GetResp) (now : ℤ) : ResolveOut :=
  let fromStore : ResolveOut :=
    match resp with
    | .nil => ⟨.ok 0, true, st⟩
    | .fail => ⟨.error (), true, st⟩
    | .val none => ⟨.error (), true, st⟩
    | .val (some l) =>
      if cfg.enableLocalCache then
        ⟨.ok l, true,
          ⟨fun x => if x = userID then some l else st.limits x,
           fun x => if x = userID then some (now + cfg.localCacheTTL) else st.expiry x⟩⟩
      else ⟨.ok l, true, st⟩
  if cfg.enableLocalCache then
    match st.limits userID with
    | some l =>
      match st.expiry userID with
      | some e => if now < e then ⟨.ok l, false, st⟩ else fromStore
      | none => fromStore
    | none => fromStore
  else fromStore

/-- The limit `Service.RateLimit` (and, with the same lines,
`Service.GetRemaining`) hands to the delegated algorithm: the resolved
user limit, replaced by the caller-supplied `limitArg` when resolution
errored or yielded 0. -/
def effectiveLimit (cfg : RLConfig) (st : CacheState) (userID : String)
    (limitArg : ℤ) (resp : GetResp) (now : ℤ) : ℤ :=
  let userLimit :=
    match (getUserLimit cfg st userID resp now).result with
    | .error _ => limitArg
    | .ok l => l
  if userLimit = 0 then limitArg else userLimit

/-- Embeds `Service.RateLimit`: resolve the effective limit, then delegate to the
configured algorithm's `Allow`, here abstracted as a function `allow` of the
limit passed to it; its error (wrapped by the Go code) is the only error the
call can return. -/
def rateLimit (cfg : RLConfig) (st : CacheState) (userID : String)
    (limitArg : ℤ) (resp : GetResp) (now : ℤ)
    (allow : ℤ → Except Unit Bool) : Except Unit Bool × CacheState :=
  (allow (effectiveLimit cfg st userID limitArg resp now),
   (getUserLimit cfg st userID resp now).cache)

/-- Embeds `Service.GetRemaining`: same resolution, delegating to the algorithm's
remaining query. -/
def serviceGetRemaining (cfg : RLConfig) (st : CacheState) (userID : String)
    (limitArg : ℤ) (resp : GetResp) (now : ℤ)
    (remaining : ℤ → Except Unit ℤ) : Except Unit ℤ × CacheState :=
  (remaining (effectiveLimit cfg st userID limitArg resp now),
   (getUserLimit cfg st userID resp now).cache)

/-- Embeds `Service.SetUserLimit`: write the override to
`rate_limit:config:<id>` with TTL = local-cache TTL (`storeOk = false`
models a failing `SET`, which returns the error before touching the cache),
then refresh the local cache entry when the cache is enabled.  Returns the
new cache and the new override key-space. -/
def setUserLimit (cfg : RLConfig) (st : CacheState) (ov : String → Option ℤ)
    (userID : String) (l : ℤ) (now : ℤ) (storeOk : Bool) :
    Except Unit (CacheState × (String → Option ℤ)) :=
  if storeOk then
    .ok
      (if cfg.enableLocalCache then
        ⟨fun x => if x = userID then some l else st.limits x,
         fun x => if x = userID then some (now + cfg.localCacheTTL) else st.expiry x⟩
       else st,
       fun x => if x = userID then some l else ov x)
  else .error ()

/-- A healthy store `Get` for the override key-space `ov`: an absent key is
`redis.Nil`, a key written by `SetUserLimit` parses back to its integer. -/
def respOf (ov : String → Option ℤ) (userID : String) : GetResp :=
  match ov userID with
  | none => .nil
  | some v => .val (some v)

/-- C2.  Effective-limit resolution order: (i) when the cache is enabled
and holds an unexpired entry, resolution answers from the cache and never
consults the store, whatever the store would say; (ii) on a cache miss a
`redis.Nil` from the store is not an error — resolution returns `(0, nil)`
and the decision falls back to the caller-supplied limit; (iii) on a cache
miss a store error degrades to the fallback limit and `RateLimit` still
delegates to the algorithm instead of failing. -/
theorem limit_resolution_order (cfg : RLConfig) (st : CacheState) (u : String)
    (now fallback l e : ℤ) (allow : ℤ → Except Unit Bool) :
    (cfg.enableLocalCache = true → st.limits u = some l → st.expiry u = some e →
      now < e → ∀ resp, getUserLimit cfg st u resp now = ⟨.ok l, false, st⟩) ∧
    (st.limits u = none →
      getUserLimit cfg st u .nil now = ⟨.ok 0, true, st⟩ ∧
      effectiveLimit cfg st u fallback .nil now = fallback) ∧
    (st.limits u = none →
      rateLimit cfg st u fallback .fail now allow = (allow fallback, st)) := by
  refine ⟨?_, ?_, ?_⟩
  · intro hen hl he hnow resp
    simp [getUserLimit, hen, hl, he, hnow]
  · intro hl
    have hres : getUserLimit cfg st u .nil now = ⟨.ok 0, true, st⟩ := by
      unfold getUserLimit
      rcases hen : cfg.enableLocalCache with _ | _
      · simp
      · simp [hl]
    refine ⟨hres, ?_⟩
    unfold effectiveLimit
    rw [hres]
    simp
  · intro hl
    have hres : getUserLimit cfg st u .fail now = ⟨.error (), true, st⟩ := by
      unfold getUserLimit
      rcases hen : cfg.enableLocalCache with _ | _
      · simp
      · simp [hl]
    unfold rateLimit effectiveLimit
    rw [hres]
    simp

/-- Witness for `limit_resolution_order`: an identity cached at limit 5 and
not yet expired resolves to 5 without a store round trip; an uncached
identity resolves `redis.Nil` to the fallback 7, and a store failure leaves
`RateLimit` delegating at the fallback 7. -/
theorem limit_resolution_order_witness :
    (getUserLimit ⟨true, 10, "sliding_window", 60⟩
        ⟨fun _ => some 5, fun _ => some 100⟩ "alice" .fail 0
      = ⟨.ok 5, false, ⟨fun _ => some 5, fun _ => some 100⟩⟩) ∧
    (effectiveLimit ⟨true, 10, "sliding_window", 60⟩
        ⟨fun _ => none, fun _ => none⟩ "alice" 7 .nil 0 = 7) ∧
    (rateLimit ⟨true, 10, "sliding_window", 60⟩
        ⟨fun _ => none, fun _ => none⟩ "alice" 7 .fail 0 (fun lim => .ok (lim = 7))
      = (.ok true, ⟨fun _ => none, fun _ => none⟩)) := by
  refine ⟨?_, ?_, ?_⟩
  · exact (limit_resolution_order ⟨true, 10, "sliding_window", 60⟩
      ⟨fun _ => some 5, fun _ => some 100⟩ "alice" 0 7 5 100
      (fun lim => .ok (lim = 7))).1 rfl rfl rfl (by decide) .fail
  · exact ((limit_resolution_order ⟨true, 10, "sliding_window", 60⟩
      ⟨fun _ => none, fun _ => none⟩ "alice" 0 7 5 100
      (fun lim => .ok (lim = 7))).2.1 rfl).2
  · have := (limit_resolution_order ⟨true, 10, "sliding_window", 60⟩
      ⟨fun _ => none, fun _ => none⟩ "alice" 0 7 5 100
      (fun lim => .ok (decide (lim = 7)))).2.2 rfl
    simpa using this

/-- C4.  Override enforcement round-trip: after `SetUserLimit(id, 50)`
(with the local cache enabled), `RateLimit(id, 100)` decides against the
limit 50 — not 100 — straight from the cache, whatever the store would
answer, for as long as the cache entry is unexpired; once the TTL has
elapsed with no refresh, the next resolution reaches the store again. -/
theorem override_cache_roundtrip (cfg : RLConfig) (st : CacheState)
    (ov : String → Option ℤ) (u : String) (now nowFresh nowStale : ℤ)
    (st' : CacheState) (ov' : String → Option ℤ)
    (allow : ℤ → Except Unit Bool)
    (hen : cfg.enableLocalCache = true)
    (hset : setUserLimit cfg st ov u 50 now true = .ok (st', ov'))
    (hfresh : nowFresh < now + cfg.localCacheTTL)
    (hstale : now + cfg.localCacheTTL ≤ nowStale) :
    (∀ resp, rateLimit cfg st' u 100 resp nowFresh allow = (allow 50, st')) ∧
    (∀ resp, (getUserLimit cfg st' u resp nowStale).storeQueried = true) := by
  simp only [setUserLimit, if_pos rfl, hen, if_true, Except.ok.injEq, Prod.mk.injEq] at hset
  have hl : st'.limits u = some 50 := by
    rw [← hset.1]
    simp
  have he : st'.expiry u = some (now + cfg.localCacheTTL) := by
    rw [← hset.1]
    simp
  constructor
  · intro resp
    have hres : getUserLimit cfg st' u resp nowFresh = ⟨.ok 50, false, st'⟩ := by
      simp [getUserLimit, hen, hl, he, hfresh]
    simp [rateLimit, effectiveLimit, hres]
  · intro resp
    have hnot : ¬ (nowStale < now + cfg.localCacheTTL) := not_lt.mpr hstale
    rcases resp with _ | _ | (_ | _) <;>
      simp [getUserLimit, hen, hl, he, hnot]

/-- Witness for `override_cache_roundtrip`: `SetUserLimit("alice", 50)` at
time 0 with TTL 10, then `RateLimit("alice", 100)` at time 5 decides at
limit 50 from the cache, and the resolution at time 10 reaches the store. -/
theorem override_cache_roundtrip_witness :
    (rateLimit ⟨true, 10, "sliding_window", 60⟩
        ⟨fun x => if x = "alice" then some 50 else none,
         fun x => if x = "alice" then some (0 + 10) else none⟩
        "alice" 100 .nil 5 (fun lim => .ok (lim == 50))
      = (.ok (50 == 50),
         ⟨fun x => if x = "alice" then some 50 else none,
          fun x => if x = "alice" then some (0 + 10) else none⟩)) ∧
    ((getUserLimit ⟨true, 10, "sliding_window", 60⟩
        ⟨fun x => if x = "alice" then some 50 else none,
         fun x => if x = "alice" then some (0 + 10) else none⟩
        "alice" .nil 10).storeQueried = true) := by
  have h := override_cache_roundtrip ⟨true, 10, "sliding_window", 60⟩
    ⟨fun _ => none, fun _ => none⟩ (fun _ => none) "alice" 0 5 10
    ⟨fun x => if x = "alice" then some 50 else none,
     fun x => if x = "alice" then some (0 + 10) else none⟩
    (fun x => if x = "alice" then some 50 else none)
    (fun lim => .ok (lim == 50)) rfl rfl (by decide) (by decide)
  exact ⟨h.1 .nil, h.2 .nil⟩

/-- C10.  Absence is never cached: when the override lookup comes back
`redis.Nil`, `getUserLimit` returns `(0, nil)` without touching the local
cache maps, so an identity with no cache entry keeps triggering a store
round trip on every resolution, cache enabled or not. -/
theorem absence_not_cached (cfg : RLConfig) (st : CacheState) (u : String)
    (now : ℤ) :
    (getUserLimit cfg st u .nil now).cache = st ∧
    (st.limits u = none →
      (getUserLimit cfg st u .nil now).result = .ok 0 ∧
      ∀ resp now', (getUserLimit cfg st u resp now').storeQueried = true) := by
  constructor
  · rcases hen : cfg.enableLocalCache with _ | _
    · simp [getUserLimit, hen]
    · rcases hL : st.limits u with _ | l
      · simp [getUserLimit, hen, hL]
      · rcases hE : st.expiry u with _ | e
        · simp [getUserLimit, hen, hL, hE]
        · by_cases hlt : now < e <;> simp [getUserLimit, hen, hL, hE, hlt]
  · intro hL
    constructor
    · rcases hen : cfg.enableLocalCache with _ | _
      · simp [getUserLimit, hen]
      · simp [getUserLimit, hen, hL]
    · intro resp now'
      rcases hen : cfg.enableLocalCache with _ | _ <;>
        rcases resp with _ | _ | (_ | _) <;>
          simp [getUserLimit, hen, hL]

/-- Witness for `absence_not_cached` on an empty cache: the `redis.Nil`
resolution for `"alice"` leaves the cache unchanged, yields `(0, nil)` and a
later resolution queries the store again. -/
theorem absence_not_cached_witness :
    ((getUserLimit ⟨true, 10, "sliding_window", 60⟩
        ⟨fun _ => none, fun _ => none⟩ "alice" .nil 0).cache
      = ⟨fun _ => none, fun _ => none⟩) ∧
    ((getUserLimit ⟨true, 10, "sliding_window", 60⟩
        ⟨fun _ => none, fun _ => none⟩ "alice" .nil 0).result = .ok 0) ∧
    ((getUserLimit ⟨true, 10, "sliding_window", 60⟩
        ⟨fun _ => none, fun _ => none⟩ "alice" .nil 3).storeQueried = true) := by
  have h := absence_not_cached ⟨true, 10, "sliding_window", 60⟩
    ⟨fun _ => none, fun _ => none⟩ "alice" 0
  exact ⟨h.1, (h.2 rfl).1, (h.2 rfl).2 .nil 3⟩

/-- C9.  Zero-override conflation: whenever limit resolution yields 0 —
the override key is absent, or the stored override value is 0 — both
`RateLimit` and `GetRemaining` substitute the caller-supplied fallback
limit; consequently `SetUserLimit(id, 0)` never enforces a zero limit, on
any later resolution, cache hit or store round trip alike. -/
theorem zero_override_conflation (cfg : RLConfig) (st st' : CacheState)
    (ov ov' : String → Option ℤ) (u : String) (resp : GetResp)
    (now fallback : ℤ)
    (allow : ℤ → Except Unit Bool) (remaining : ℤ → Except Unit ℤ) :
    ((getUserLimit cfg st u resp now).result = .ok 0 →
      (rateLimit cfg st u fallback resp now allow).1 = allow fallback ∧
      (serviceGetRemaining cfg st u fallback resp now remaining).1
        = remaining fallback) ∧
    (setUserLimit cfg st ov u 0 now true = .ok (st', ov') →
      ∀ now', effectiveLimit cfg st' u fallback (respOf ov' u) now' = fallback) := by
  constructor
  · intro hz
    constructor
    · simp [rateLimit, effectiveLimit, hz]
    · simp [serviceGetRemaining, effectiveLimit, hz]
  · intro hset now'
    simp only [setUserLimit, if_pos rfl, if_true, Except.ok.injEq, Prod.mk.injEq] at hset
    have hov : respOf ov' u = .val (some 0) := by
      rw [← hset.2]
      simp [respOf]
    rw [hov]
    rcases hen : cfg.enableLocalCache with _ | _
    · have hst : st' = st := by
        have h1 := hset.1
        rw [hen] at h1
        simpa using h1.symm
      subst hst
      simp [effectiveLimit, getUserLimit, hen]
    · have hl : st'.limits u = some 0 := by
        have h1 := hset.1
        rw [hen] at h1
        rw [← h1]
        simp
      have he : st'.expiry u = some (now + cfg.localCacheTTL) := by
        have h1 := hset.1
        rw [hen] at h1
        rw [← h1]
        simp
      by_cases hfresh : now' < now + cfg.localCacheTTL
      · simp [effectiveLimit, getUserLimit, hen, hl, he, hfresh]
      · simp [effectiveLimit, getUserLimit, hen, hl, he, hfresh]

/-- Witness for `zero_override_conflation`: with no override the fallback 7
is used by both operations, and after `SetUserLimit("alice", 0)` the
effective limit is still the fallback 7. -/
theorem zero_override_conflation_witness :
    ((rateLimit ⟨true, 10, "sliding_window", 60⟩ ⟨fun _ => none, fun _ => none⟩
        "alice" 7 .nil 0 (fun lim => .ok (lim == 7))).1
      = (fun lim => (.ok (lim == 7) : Except Unit Bool)) 7) ∧
    (effectiveLimit ⟨true, 10, "sliding_window", 60⟩
        ⟨fun x => if x = "alice" then some 0 else none,
         fun x => if x = "alice" then some (0 + 10) else none⟩
        "alice" 7
        (respOf (fun x => if x = "alice" then some 0 else none) "alice") 5
      = 7) := by
  have h := zero_override_conflation ⟨true, 10, "sliding_window", 60⟩
    ⟨fun _ => none, fun _ => none⟩
    ⟨fun x => if x = "alice" then some 0 else none,
     fun x => if x = "alice" then some (0 + 10) else none⟩
    (fun _ => none) (fun x => if x = "alice" then some 0 else none)
    "alice" .nil 0 7 (fun lim => .ok (lim == 7)) (fun lim => .ok lim)
  exact ⟨(h.1 rfl).1, h.2 rfl 5⟩

/-! Service `Reset` over the whole store (`Service.Reset`). -/

/-- Everything the service touches in Redis and in process, per identity:
the sliding-window sorted sets, the leaky-bucket hashes, the local cache and
the override keys. -/
structure FullState where
  sliding : String → Finset ℤ
  leaky : String → Option Bucket
  cache : CacheState
  ov : String → Option ℤ

/-- Embeds `Service.Reset`: picks the configured algorithm (`"sliding_window"`
selects the sliding window, anything else the leaky bucket) and delegates to
its `Reset`, which `DEL`s only that algorithm's counter key for the
identity.  `DEL` on a missing key succeeds, so — store failures aside — the
call is total and returns no error. -/
def serviceReset (cfg : RLConfig) (st : FullState) (u : String) : FullState :=
  if cfg.algorithm = "sliding_window" then
    { st with sliding :=
        fun x => if x = u then slidingReset (st.sliding x) else st.sliding x }
  else
    { st with leaky :=
        fun x => if x = u then leakyReset (st.leaky x) else st.leaky x }

/-- C8.  Reset scope and idempotence: `Service.Reset(id)` leaves the
local cache and the override key-space unchanged, deletes only the active
algorithm's counter key for `id` (the other algorithm's records and other
identities' records are untouched), is a no-op on an identity with no prior
activity, and makes the next `Allow` / `GetRemaining` for `id` behave as for
a brand-new identity (admitted, full limit available). -/
theorem reset_scope (cfg : RLConfig) (st : FullState) (u : String) :
    (serviceReset cfg st u).cache = st.cache ∧
    (serviceReset cfg st u).ov = st.ov ∧
    (cfg.algorithm = "sliding_window" →
      (serviceReset cfg st u).leaky = st.leaky ∧
      (serviceReset cfg st u).sliding u = ∅ ∧
      (∀ v, v ≠ u → (serviceReset cfg st u).sliding v = st.sliding v) ∧
      (st.sliding u = ∅ → serviceReset cfg st u = st) ∧
      (∀ limit now ws, 0 < limit →
        (slidingAllow ((serviceReset cfg st u).sliding u) now (now - ws) limit).2
            = true ∧
        slidingGetRemaining ((serviceReset cfg st u).sliding u) now ws limit
            = limit)) ∧
    (cfg.algorithm ≠ "sliding_window" →
      (serviceReset cfg st u).sliding = st.sliding ∧
      (serviceReset cfg st u).leaky u = none ∧
      (∀ v, v ≠ u → (serviceReset cfg st u).leaky v = st.leaky v) ∧
      (st.leaky u = none → serviceReset cfg st u = st) ∧
      (∀ limit now ws, 0 < limit →
        (leakyAllow ((serviceReset cfg st u).leaky u) now limit ws).map Prod.snd
          = some true)) := by
  by_cases halg : cfg.algorithm = "sliding_window"
  · refine ⟨by simp [serviceReset, halg], by simp [serviceReset, halg], ?_, ?_⟩
    · intro _
      refine ⟨by simp [serviceReset, halg], by simp [serviceReset, halg, slidingReset],
        fun v hv => by simp [serviceReset, halg, hv], ?_, ?_⟩
      · intro hempty
        have hfun : (fun x => if x = u then slidingReset (st.sliding x) else st.sliding x)
            = st.sliding := by
          funext x
          by_cases hx : x = u
          · subst hx
            simp [slidingReset, hempty]
          · simp [hx]
        simp [serviceReset, halg, hfun]
      · intro limit now ws hlim
        have hempty : (serviceReset cfg st u).sliding u = ∅ := by
          simp [serviceReset, halg, slidingReset]
        rw [hempty]
        constructor
        · simp [slidingAllow, hlim]
        · unfold slidingGetRemaining
          simp only [Finset.filter_empty, Finset.card_empty, Nat.cast_zero, sub_zero]
          rw [if_neg (by omega)]
    · intro h
      exact absurd halg h
  · refine ⟨by simp [serviceReset, halg], by simp [serviceReset, halg], ?_, ?_⟩
    · intro h
      exact absurd h halg
    · intro _
      refine ⟨by simp [serviceReset, halg], by simp [serviceReset, halg, leakyReset],
        fun v hv => by simp [serviceReset, halg, hv], ?_, ?_⟩
      · intro hempty
        have hfun : (fun x => if x = u then leakyReset (st.leaky x) else st.leaky x)
            = st.leaky := by
          funext x
          by_cases hx : x = u
          · subst hx
            simp [leakyReset, hempty]
          · simp [hx]
        simp [serviceReset, halg, hfun]
      · intro limit now ws hlim
        have hempty : (serviceReset cfg st u).leaky u = none := by
          simp [serviceReset, halg, leakyReset]
        rw [hempty]
        have hpos : (0 : ℚ) < (limit : ℚ) := by exact_mod_cast hlim
        simp [leakyAllow, luaMax0, hpos]

/-- Witness for `reset_scope`: with the sliding algorithm configured and one
recorded request for `"alice"`, reset leaves cache and overrides alone,
empties `"alice"`'s window, and the next call at limit 3 is admitted with
remaining 3. -/
theorem reset_scope_witness :
    ((serviceReset ⟨true, 10, "sliding_window", 60⟩
        ⟨fun _ => {5}, fun _ => none, ⟨fun _ => none, fun _ => none⟩, fun _ => none⟩
        "alice").cache = ⟨fun _ => none, fun _ => none⟩) ∧
    ((serviceReset ⟨true, 10, "sliding_window", 60⟩
        ⟨fun _ => {5}, fun _ => none, ⟨fun _ => none, fun _ => none⟩, fun _ => none⟩
        "alice").sliding "alice" = ∅) ∧
    ((slidingAllow ((serviceReset ⟨true, 10, "sliding_window", 60⟩
        ⟨fun _ => {5}, fun _ => none, ⟨fun _ => none, fun _ => none⟩, fun _ => none⟩
        "alice").sliding "alice") 100 (100 - 60) 3).2 = true) ∧
    (slidingGetRemaining ((serviceReset ⟨true, 10, "sliding_window", 60⟩
        ⟨fun _ => {5}, fun _ => none, ⟨fun _ => none, fun _ => none⟩, fun _ => none⟩
        "alice").sliding "alice") 100 60 3 = 3) := by
  have h := reset_scope ⟨true, 10, "sliding_window", 60⟩
    ⟨fun _ => {5}, fun _ => none, ⟨fun _ => none, fun _ => none⟩, fun _ => none⟩
    "alice"
  have h2 := h.2.2.1 rfl
  exact ⟨h.1, h2.2.1, (h2.2.2.2.2 3 100 60 (by decide)).1,
    (h2.2.2.2.2 3 100 60 (by decide)).2⟩

end RateLimit
